import Mathlib

/-!
A shallow embedding of the `schema` URL-encoding package: the ordered
`UrlValues` collector and the reflective struct `Encoder` from the main
source file, together with the list-based `UrlValues` variant from
`values.go`, and proofs about their behaviour.
-/

set_option autoImplicit false

namespace Schema

/-! ## Association-list maps

Go's `map` type is modelled as an association list holding at most one
entry per key; insertion replaces an existing entry in place. -/

def lookupA {κ α : Type} [DecidableEq κ] : List (κ × α) → κ → Option α
  | [], _ => none
  | (k, a) :: rest, key => if k = key then some a else lookupA rest key

def setA {κ α : Type} [DecidableEq κ] : List (κ × α) → κ → α → List (κ × α)
  | [], key, a => [(key, a)]
  | (k, b) :: rest, key, a =>
    if k = key then (key, a) :: rest else (k, b) :: setA rest key a

/-- The Go statement `m[k] = append(m[k], v)` on a `map[string][]string`. -/
def appendA (m : List (String × List String)) (k v : String) :
    List (String × List String) :=
  setA m k (((lookupA m k).getD []) ++ [v])

/-! ## URL query escaping

`net/url.QueryEscape`: bytes of the UTF-8 encoding are kept when
unreserved (`A-Z a-z 0-9 - _ . ~`), a space becomes `+`, and every other
byte becomes `%XX` with uppercase hexadecimal digits. -/

def utf8Bytes (c : Char) : List Nat :=
  let n := c.toNat
  if n < 0x80 then [n]
  else if n < 0x800 then
    [0xC0 ||| (n >>> 6), 0x80 ||| (n &&& 0x3F)]
  else if n < 0x10000 then
    [0xE0 ||| (n >>> 12), 0x80 ||| ((n >>> 6) &&& 0x3F), 0x80 ||| (n &&& 0x3F)]
  else
    [0xF0 ||| (n >>> 18), 0x80 ||| ((n >>> 12) &&& 0x3F),
     0x80 ||| ((n >>> 6) &&& 0x3F), 0x80 ||| (n &&& 0x3F)]

def hexUpper (n : Nat) : Char :=
  if n < 10 then Char.ofNat (48 + n) else Char.ofNat (55 + n)

def isUnreservedByte (b : Nat) : Bool :=
  (65 ≤ b && b ≤ 90) || (97 ≤ b && b ≤ 122) || (48 ≤ b && b ≤ 57) ||
  b == 45 || b == 95 || b == 46 || b == 126

def escapeByte (b : Nat) : String :=
  if isUnreservedByte b then String.singleton (Char.ofNat b)
  else if b == 32 then "+"
  else "%" ++ String.singleton (hexUpper (b / 16)) ++ String.singleton (hexUpper (b % 16))

def queryEscape (s : String) : String :=
  String.join ((s.data.flatMap utf8Bytes).map escapeByte)

/-! ## The list-based `UrlValues` (`values.go`) -/

structure UrlValue where
  Key : String
  Value : String
deriving DecidableEq, Repr

def UrlValuesL := List UrlValue

/-- From `values.go`, `UrlValues.Values`: build a `map[string][]string` by
appending each pair's value under its key, in pair order. -/
def UrlValuesL.Values (v : UrlValuesL) : List (String × List String) :=
  v.foldl (fun m p => appendA m p.Key p.Value) []

/-- From `values.go`, `UrlValues.Encode`: render each pair in sequence order as
`escapedKey=escapedValue`, joined by `&`. -/
def UrlValuesL.Encode (v : UrlValuesL) : String :=
  String.intercalate "&"
    (v.map fun p => queryEscape p.Key ++ "=" ++ queryEscape p.Value)

/-! ## Data model for the reflective encoder

Go values reachable by the encoder are embedded as a deep datatype. A
type carries exactly the information `reflect.Type` provides to the
encoder: its kind, the element type of pointers and slices, and its
`String()` rendering for struct and map types. -/

inductive GoType : Type where
  | tbool : GoType
  | tint : GoType
  | tuint : GoType
  | tstr : GoType
  | tptr : GoType → GoType
  | tslice : GoType → GoType
  | tstruct : String → GoType
  | tmap : String → GoType
deriving DecidableEq, Repr

/-- The rendering `reflect.Type.String()` as used for composite-error keys. -/
def GoType.typeName : GoType → String
  | .tbool => "bool"
  | .tint => "int"
  | .tuint => "uint"
  | .tstr => "string"
  | .tptr t => "*" ++ t.typeName
  | .tslice t => "[]" ++ t.typeName
  | .tstruct n => n
  | .tmap n => n

/-- Modelled from the spec: the field-metadata collaborator
`fieldAlias(field, tag) -> (name, options)` is not part of the core
source, so a struct field carries its already-resolved output name and
option set. -/
structure FieldInfo where
  name : String
  opts : List String
deriving DecidableEq, Repr

mutual
/-- A Go value as seen through `reflect.Value` by the encoder.
`vptrN t` is a nil pointer whose pointee type is `t`; `vptrV x` is a
non-nil pointer to `x`. A struct value records its type name, the result
of its `IsZero()` method when its type implements one (`ownZero`), and
its fields with resolved metadata. A map value records its type name and
whether it is nil or empty. -/
inductive GoVal : Type where
  | vbool : Bool → GoVal
  | vint : Int → GoVal
  | vuint : Nat → GoVal
  | vstr : String → GoVal
  | vptrN : GoType → GoVal
  | vptrV : GoVal → GoVal
  | vslice : GoType → List GoVal → GoVal
  | vstruct : String → Option Bool → GoFields → GoVal
  | vmap : String → Bool → GoVal

/-- The field list of a struct value. -/
inductive GoFields : Type where
  | nil : GoFields
  | cons : FieldInfo → GoVal → GoFields → GoFields
end

/-- The type of a value, `reflect.Value.Type()`. -/
def typeOf : GoVal → GoType
  | .vbool _ => .tbool
  | .vint _ => .tint
  | .vuint _ => .tuint
  | .vstr _ => .tstr
  | .vptrN t => .tptr t
  | .vptrV x => .tptr (typeOf x)
  | .vslice t _ => .tslice t
  | .vstruct n _ _ => .tstruct n
  | .vmap n _ => .tmap n

/-- An `encoderFunc`. `none` models a run-time panic (calling a nil
function value, or a kind mismatch that panics inside `reflect`). -/
def EncFn : Type := GoVal → Option String

def encodeBool : EncFn := fun v =>
  match v with
  | .vbool b => some (if b then "true" else "false")
  | _ => none

def encodeInt : EncFn := fun v =>
  match v with
  | .vint i => some (toString i)
  | _ => none

def encodeUint : EncFn := fun v =>
  match v with
  | .vuint n => some (toString n)
  | _ => none

def encodeString : EncFn := fun v =>
  match v with
  | .vstr s => some s
  | _ => none

/-- The closure built by `typeEncoder`'s pointer case: `"null"` for a nil
pointer, otherwise a call of the pointee's resolved `encoderFunc` — which
is a nil function (a panic, `none`) when the pointee resolved to no
encoder. -/
def ptrEncoderWrap (f : Option EncFn) : EncFn := fun v =>
  match v with
  | .vptrN _ => some "null"
  | .vptrV x =>
    match f with
    | some g => g x
    | none => none
  | _ => none

/-- Source `typeEncoder`: a registered encoder for the exact type wins;
otherwise dispatch on kind. -/
def typeEncoder (t : GoType) (reg : List (GoType × EncFn)) : Option EncFn :=
  match lookupA reg t with
  | some f => some f
  | none =>
    match t with
    | .tbool => some encodeBool
    | .tint => some encodeInt
    | .tuint => some encodeUint
    | .tstr => some encodeString
    | .tptr et => some (ptrEncoderWrap (typeEncoder et reg))
    | .tslice _ => none
    | .tstruct _ => none
    | .tmap _ => none

/-! ## The ordered `UrlValues` collector (main source file) -/

/-- The ordered collector `UrlValues`: url.Values with a recorded key order. -/
structure UrlValues where
  keys : List String
  values : List (String × List String)
deriving DecidableEq, Repr

/-- Method `(*UrlValues).Values`. -/
def UrlValues.Values (v : UrlValues) : List (String × List String) :=
  v.values

/-- The `(key, value)` pairs visited by `(*UrlValues).Encode`: keys in
recorded order, each key's values in recorded order. -/
def UrlValues.pairsInOrder (v : UrlValues) : List (String × String) :=
  v.keys.flatMap fun k => ((lookupA v.values k).getD []).map fun x => (k, x)

/-- Method `(*UrlValues).Encode`: empty map renders to `""`; otherwise each
visited pair writes `escapedKey=escapedValue`, with `&` before every
pair except the first. -/
def UrlValues.Encode (v : UrlValues) : String :=
  if v.values.length = 0 then ""
  else
    String.intercalate "&"
      (v.pairsInOrder.map fun p => queryEscape p.1 ++ "=" ++ queryEscape p.2)

def removeKeyL : List String → String → List String
  | [], _ => []
  | x :: rest, key => if x = key then rest else x :: removeKeyL rest key

/-- Method `(*UrlValues).removeKey`: drop the first occurrence of `key` from the
key-order list; the value map is untouched. -/
def UrlValues.removeKey (v : UrlValues) (key : String) : UrlValues :=
  { v with keys := removeKeyL v.keys key }

/-! ## The struct encoder -/

/-- An error value: the structural error, a per-field
`encoder not found` error, or a nested composite (`MultiError`). -/
inductive EncErr : Type where
  | errStruct : EncErr
  | notFound : GoVal → EncErr
  | multi : List (String × EncErr) → EncErr

/-- Modelled from the spec: `MultiError`, the composite error, is a
mapping from a type/field identifier to the error for that field; its
declaration lives outside this source file. -/
def MultiError : Type := List (String × EncErr)

structure Encoder where
  regenc : List (GoType × EncFn)

def NewEncoder : Encoder := { regenc := [] }

/-- Method `(*Encoder).RegisterEncoder`, keyed by the concrete type of the
example value. -/
def Encoder.RegisterEncoder (e : Encoder) (value : GoVal) (f : EncFn) : Encoder :=
  { e with regenc := setA e.regenc (typeOf value) f }

/-- Method `(*Encoder).hasCustomEncoder`. -/
def Encoder.hasCustomEncoder (e : Encoder) (t : GoType) : Bool :=
  (lookupA e.regenc t).isSome

/-- Source `isValidStructPointer`: pointer kind, valid (non-nil) pointee of
struct kind. -/
def isValidStructPointer : GoVal → Bool
  | .vptrV (.vstruct _ _ _) => true
  | _ => false

mutual
/-- Source `isZero`: maps and slices are zero when nil or empty; a struct whose
type implements `IsZero() bool` defers to it, otherwise all fields must
be zero; every other value compares against its type's zero value. -/
def isZero : GoVal → Bool
  | .vmap _ empty => empty
  | .vslice _ xs => xs.isEmpty
  | .vstruct _ (some b) _ => b
  | .vstruct _ none fields => isZeroFields fields
  | .vbool b => b == false
  | .vint i => i == 0
  | .vuint n => n == 0
  | .vstr s => s == ""
  | .vptrN _ => true
  | .vptrV _ => false

def isZeroFields : GoFields → Bool
  | .nil => true
  | .cons _ v rest => isZero v && isZeroFields rest
end

/-- Lines 172–175 of the encoder: append a scalar value, recording the
key in the order list only when it is new to the map. -/
def appendKV (vs : UrlValues) (name value : String) : UrlValues :=
  { keys := if (lookupA vs.values name).isSome then vs.keys else vs.keys ++ [name],
    values := appendA vs.values name value }

/-- Lines 202–209 of the encoder: when the key is already in the map,
remove it from the order list; then re-append the key and set its value
list to the encoded slice elements. -/
def sliceSet (vs : UrlValues) (name : String) (strs : List String) : UrlValues :=
  let vs1 := if (lookupA vs.values name).isSome then vs.removeKey name else vs
  { keys := vs1.keys ++ [name], values := setA vs1.values name strs }

/-- The element loop of the slice branch; a panicking element encoder
aborts the call. -/
def encodeElems (g : EncFn) : List GoVal → Option (List String)
  | [] => some []
  | x :: xs =>
    match g x, encodeElems g xs with
    | some s, some rest => some (s :: rest)
    | _, _ => none

mutual
/-- Method `(*Encoder).encode`: dereference one pointer level, fail structurally
unless a struct remains, then traverse the fields accumulating a
composite error. The outer `none` models a run-time panic. -/
def Encoder.encode (e : Encoder) (v : GoVal) (vs : UrlValues) :
    Option (UrlValues × Option EncErr) :=
  match v with
  | .vstruct _ _ fields =>
    match Encoder.encodeFields e fields vs [] with
    | none => none
    | some (vs1, errs) =>
      some (vs1, if 0 < errs.length then some (.multi errs) else none)
  | .vptrV (.vstruct _ _ fields) =>
    match Encoder.encodeFields e fields vs [] with
    | none => none
    | some (vs1, errs) =>
      some (vs1, if 0 < errs.length then some (.multi errs) else none)
  | _ => some (vs, some .errStruct)
termination_by sizeOf v
decreasing_by all_goals (try subst_eqs; simp_wf; try omega)

/-- The field loop of `(*Encoder).encode`, with the composite-error
accumulator threaded through. -/
def Encoder.encodeFields (e : Encoder) (fs : GoFields) (vs : UrlValues)
    (errs : MultiError) : Option (UrlValues × MultiError) :=
  match fs with
  | .nil => some (vs, errs)
  | .cons info fv rest =>
    if info.name = "-" then Encoder.encodeFields e rest vs errs
    else
      match h : fv, isValidStructPointer fv && !(e.hasCustomEncoder (typeOf fv)) with
      | .vptrV s, true =>
        (match Encoder.encode e s vs with
         | none => none
         | some (vs1, some err) =>
           Encoder.encodeFields e rest vs1 (setA errs (typeOf s).typeName err)
         | some (vs1, none) => Encoder.encodeFields e rest vs1 errs)
      | _, _ =>
        match typeEncoder (typeOf fv) e.regenc with
        | some f =>
          (match f fv with
           | none => none
           | some value =>
             if info.opts.contains "omitempty" && isZero fv then
               Encoder.encodeFields e rest vs errs
             else Encoder.encodeFields e rest (appendKV vs info.name value) errs)
        | none =>
          match fv with
          | .vstruct _ _ _ =>
            (match Encoder.encode e fv vs with
             | none => none
             | some (vs1, some err) =>
               Encoder.encodeFields e rest vs1
                 (setA errs (typeOf fv).typeName err)
             | some (vs1, none) => Encoder.encodeFields e rest vs1 errs)
          | .vslice et xs =>
            (match typeEncoder et e.regenc with
             | none =>
               Encoder.encodeFields e rest vs
                 (setA errs (typeOf fv).typeName (.notFound fv))
             | some g =>
               if xs.length = 0 && info.opts.contains "omitempty" then
                 Encoder.encodeFields e rest vs errs
               else
                 match encodeElems g xs with
                 | none => none
                 | some strs =>
                   Encoder.encodeFields e rest (sliceSet vs info.name strs) errs)
          | _ =>
            Encoder.encodeFields e rest vs
              (setA errs (typeOf fv).typeName (.notFound fv))
termination_by sizeOf fs
decreasing_by all_goals (try subst_eqs; simp_wf; try omega)
end

/-- Method `(*Encoder).Encode`: encode into a caller-supplied map; the key-order
list starts empty. Returns the shared map and the error. -/
def Encoder.Encode (e : Encoder) (src : GoVal) (dst : List (String × List String)) :
    Option (List (String × List String) × Option EncErr) :=
  match Encoder.encode e src { keys := [], values := dst } with
  | none => none
  | some (vs, err) => some (vs.values, err)

/-- Method `(*Encoder).EncodeValues`: encode into a fresh collector; on error the
collector is discarded. -/
def Encoder.EncodeValues (e : Encoder) (src : GoVal) :
    Option (Except EncErr UrlValues) :=
  match Encoder.encode e src { keys := [], values := [] } with
  | none => none
  | some (_, some err) => some (.error err)
  | some (vs, none) => some (.ok vs)

/-! ## Per-field outcomes

A non-recursing, non-panicking field step is one of: skipped, one value
appended under a key, a key's value list replaced (slice branch), or a
per-field error recorded. `classifyField` mirrors the decision tree of
the field loop and returns `none` exactly when the loop would recurse
into a nested struct or panic. -/

inductive FieldOutcome : Type where
  | skip : FieldOutcome
  | appendOne : String → String → FieldOutcome
  | setMany : String → List String → FieldOutcome
  | fail : String → EncErr → FieldOutcome

def classifyField (e : Encoder) (info : FieldInfo) (fv : GoVal) :
    Option FieldOutcome :=
  if info.name = "-" then some .skip
  else if isValidStructPointer fv && !(e.hasCustomEncoder (typeOf fv)) then none
  else
    match typeEncoder (typeOf fv) e.regenc with
    | some f =>
      (match f fv with
       | none => none
       | some value =>
         if info.opts.contains "omitempty" && isZero fv then some .skip
         else some (.appendOne info.name value))
    | none =>
      match fv with
      | .vstruct _ _ _ => none
      | .vslice et xs =>
        (match typeEncoder et e.regenc with
         | none => some (.fail (typeOf fv).typeName (.notFound fv))
         | some g =>
           if xs.length = 0 && info.opts.contains "omitempty" then some .skip
           else
             match encodeElems g xs with
             | none => none
             | some strs => some (.setMany info.name strs))
      | _ => some (.fail (typeOf fv).typeName (.notFound fv))

def applyOutcome (o : FieldOutcome) (vs : UrlValues) : UrlValues :=
  match o with
  | .skip => vs
  | .appendOne n v => appendKV vs n v
  | .setMany n strs => sliceSet vs n strs
  | .fail _ _ => vs

def applyErrOutcome (o : FieldOutcome) (errs : MultiError) : MultiError :=
  match o with
  | .fail k err => setA errs k err
  | _ => errs

def classifyFields (e : Encoder) : GoFields → Option (List FieldOutcome)
  | .nil => some []
  | .cons info fv rest =>
    match classifyField e info fv, classifyFields e rest with
    | some o, some os => some (o :: os)
    | _, _ => none

def applyAll (os : List FieldOutcome) (vs : UrlValues) : UrlValues :=
  os.foldl (fun vs o => applyOutcome o vs) vs

def applyAllErrs (os : List FieldOutcome) (errs : MultiError) : MultiError :=
  os.foldl (fun es o => applyErrOutcome o es) errs

/-- Whether the top-level value is a struct after at most one pointer
dereference (the structural precondition of `encode`). -/
def isStructAfterOneDeref : GoVal → Bool
  | .vstruct _ _ _ => true
  | .vptrV (.vstruct _ _ _) => true
  | _ => false

/-- The `(key, values)` emissions of a list of field outcomes, in order. -/
def emitsOf : List FieldOutcome → List (String × List String)
  | [] => []
  | .appendOne n v :: os => (n, [v]) :: emitsOf os
  | .setMany n vals :: os => (n, vals) :: emitsOf os
  | .skip :: os => emitsOf os
  | .fail _ _ :: os => emitsOf os

/-- The `(key, error)` entries recorded by a list of field outcomes. -/
def failsOf : List FieldOutcome → List (String × EncErr)
  | [] => []
  | .fail k err :: os => (k, err) :: failsOf os
  | .skip :: os => failsOf os
  | .appendOne _ _ :: os => failsOf os
  | .setMany _ _ :: os => failsOf os

/-- The output names of a struct's fields in declaration order, with
`-`-aliased fields dropped. -/
def nonDashNames : GoFields → List String
  | .nil => []
  | .cons info _ rest =>
    if info.name = "-" then nonDashNames rest else info.name :: nonDashNames rest

/-- Collapse consecutive duplicates. A key sequence is "contiguous"
(equal keys adjacent) exactly when its collapsed form has no
duplicates. -/
def dedupConsec : List String → List String
  | [] => []
  | [k] => [k]
  | k :: k2 :: rest =>
    if k = k2 then dedupConsec (k2 :: rest) else k :: dedupConsec (k2 :: rest)

/-- Keys of a pair sequence in first-occurrence order. -/
def firstOccurKeys : List UrlValue → List String
  | [] => []
  | p :: rest => p.Key :: (firstOccurKeys rest).filter (fun k => ¬ k = p.Key)

/-- The ordered-map view of a pair sequence: the keys in first-occurrence
order, each key holding its values in pair order. -/
def orderedOfPairs (l : List UrlValue) : UrlValues :=
  { keys := firstOccurKeys l,
    values := (firstOccurKeys l).map fun k =>
      (k, (l.filter (fun p => p.Key = k)).map UrlValue.Value) }

/-- The scalar branch of the field loop agrees with its classification,
for any field value. -/
theorem scalar_branch_eq (e : Encoder) (info : FieldInfo) (rest : GoFields)
    (vs : UrlValues) (errs : MultiError) (o : FieldOutcome) (fv : GoVal)
    (h : (match typeEncoder (typeOf fv) e.regenc with
          | some f =>
            (match f fv with
             | none => none
             | some value =>
               if info.opts.contains "omitempty" && isZero fv then
                 some FieldOutcome.skip
               else some (FieldOutcome.appendOne info.name value))
          | none => some (FieldOutcome.fail (typeOf fv).typeName (.notFound fv)))
         = some o) :
    (match typeEncoder (typeOf fv) e.regenc with
     | some f =>
       (match f fv with
        | none => none
        | some value =>
          if info.opts.contains "omitempty" && isZero fv then
            Encoder.encodeFields e rest vs errs
          else Encoder.encodeFields e rest (appendKV vs info.name value) errs)
     | none =>
       Encoder.encodeFields e rest vs
         (setA errs (typeOf fv).typeName (.notFound fv))) =
      Encoder.encodeFields e rest (applyOutcome o vs) (applyErrOutcome o errs) := by
  cases henc : typeEncoder (typeOf fv) e.regenc with
  | none =>
    simp only [henc] at h ⊢
    cases h; rfl
  | some f =>
    simp only [henc] at h ⊢
    cases hval : f fv with
    | none => simp only [hval] at h; cases h
    | some value =>
      simp only [hval] at h ⊢
      split at h
      · rename_i hskip
        rw [if_pos hskip]; cases h; rfl
      · rename_i hskip
        rw [if_neg hskip]; cases h; rfl

/-- The field loop performs exactly the classified outcome on a
non-recursing, non-panicking field, then continues with the rest. -/
theorem encodeFields_cons_classified
    (e : Encoder) (info : FieldInfo) (fv : GoVal) (rest : GoFields)
    (vs : UrlValues) (errs : MultiError) (o : FieldOutcome)
    (h : classifyField e info fv = some o) :
    Encoder.encodeFields e (.cons info fv rest) vs errs =
      Encoder.encodeFields e rest (applyOutcome o vs) (applyErrOutcome o errs) := by
  unfold classifyField at h
  by_cases hdash : info.name = "-"
  · rw [if_pos hdash] at h
    cases h
    cases fv
    on_goal 8 => rw [Encoder.encodeFields.eq_3, if_pos hdash]; rfl
    on_goal 7 => rw [Encoder.encodeFields.eq_4, if_pos hdash]; rfl
    on_goal 6 =>
      rename_i s
      by_cases hg : (isValidStructPointer (GoVal.vptrV s) &&
          !(e.hasCustomEncoder (typeOf (GoVal.vptrV s)))) = true
      · rw [Encoder.encodeFields.eq_2 e vs errs info rest s hg, if_pos hdash]
        rfl
      · rw [Encoder.encodeFields.eq_5 e vs errs info rest (GoVal.vptrV s)
          (by rintro s2 hs2 hg2; cases hs2; exact hg hg2)
          (by rintro a b c hh _ _; cases hh) (by rintro a b hh _ _; cases hh),
          if_pos hdash]
        rfl
    all_goals
      rw [Encoder.encodeFields.eq_5 e vs errs info rest _
          (by rintro s2 hs2 hg2; cases hs2)
          (by rintro a b c hh _ _; cases hh) (by rintro a b hh _ _; cases hh),
        if_pos hdash]
      rfl
  · rw [if_neg hdash] at h
    cases fv
    on_goal 8 =>
      rename_i n oz flds
      rw [if_neg (by simp [isValidStructPointer])] at h
      rw [Encoder.encodeFields.eq_3, if_neg hdash]
      cases henc : typeEncoder (typeOf (GoVal.vstruct n oz flds)) e.regenc with
      | none => simp only [henc] at h; cases h
      | some f =>
        simp only [henc] at h ⊢
        cases hval : f (GoVal.vstruct n oz flds) with
        | none => simp only [hval] at h; cases h
        | some value =>
          simp only [hval] at h ⊢
          split at h
          · rename_i hskip
            rw [if_pos hskip]; cases h; rfl
          · rename_i hskip
            rw [if_neg hskip]; cases h; rfl
    on_goal 7 =>
      rename_i et xs
      rw [if_neg (by simp [isValidStructPointer])] at h
      rw [Encoder.encodeFields.eq_4, if_neg hdash]
      cases henc : typeEncoder (typeOf (GoVal.vslice et xs)) e.regenc with
      | some f =>
        simp only [henc] at h ⊢
        cases hval : f (GoVal.vslice et xs) with
        | none => simp only [hval] at h; cases h
        | some value =>
          simp only [hval] at h ⊢
          split at h
          · rename_i hskip
            rw [if_pos hskip]; cases h; rfl
          · rename_i hskip
            rw [if_neg hskip]; cases h; rfl
      | none =>
        simp only [henc] at h ⊢
        cases helem : typeEncoder et e.regenc with
        | none => simp only [helem] at h ⊢; cases h; rfl
        | some g =>
          simp only [helem] at h ⊢
          split at h
          · rename_i hskip
            rw [if_pos hskip]; cases h; rfl
          · rename_i hskip
            rw [if_neg hskip]
            cases hstrs : encodeElems g xs with
            | none => simp only [hstrs] at h; cases h
            | some strs => simp only [hstrs] at h ⊢; cases h; rfl
    on_goal 6 =>
      rename_i s
      by_cases hg : (isValidStructPointer (GoVal.vptrV s) &&
          !(e.hasCustomEncoder (typeOf (GoVal.vptrV s)))) = true
      · rw [if_pos hg] at h; cases h
      · rw [if_neg hg] at h
        rw [Encoder.encodeFields.eq_5 e vs errs info rest (GoVal.vptrV s)
          (by rintro s2 hs2 hg2; cases hs2; exact hg hg2)
          (by rintro a b c hh _ _; cases hh) (by rintro a b hh _ _; cases hh),
          if_neg hdash]
        exact scalar_branch_eq e info rest vs errs o _ h
    all_goals
      rw [if_neg (by simp [isValidStructPointer])] at h
      rw [Encoder.encodeFields.eq_5 e vs errs info rest _
          (by rintro s2 hs2 hg2; cases hs2)
          (by rintro a b c hh _ _; cases hh) (by rintro a b hh _ _; cases hh),
        if_neg hdash]
      exact scalar_branch_eq e info rest vs errs o _ h

@[simp] theorem applyAll_nil (vs : UrlValues) : applyAll [] vs = vs := rfl

@[simp] theorem applyAll_cons (o : FieldOutcome) (os : List FieldOutcome)
    (vs : UrlValues) : applyAll (o :: os) vs = applyAll os (applyOutcome o vs) := rfl

@[simp] theorem applyAllErrs_nil (errs : MultiError) : applyAllErrs [] errs = errs := rfl

@[simp] theorem applyAllErrs_cons (o : FieldOutcome) (os : List FieldOutcome)
    (errs : MultiError) :
    applyAllErrs (o :: os) errs = applyAllErrs os (applyErrOutcome o errs) := rfl

/-- When every field is classified, the field loop is the fold of the
outcomes over the collector and the error accumulator. -/
theorem encodeFields_classified (e : Encoder) :
    ∀ (fs : GoFields) (os : List FieldOutcome),
      classifyFields e fs = some os →
      ∀ (vs : UrlValues) (errs : MultiError),
        Encoder.encodeFields e fs vs errs =
          some (applyAll os vs, applyAllErrs os errs)
  | .nil, os, h, vs, errs => by
    simp only [classifyFields] at h
    cases h
    simp [Encoder.encodeFields.eq_1]
  | .cons info fv rest, os, h, vs, errs => by
    simp only [classifyFields] at h
    cases hc : classifyField e info fv with
    | none => rw [hc] at h; cases h
    | some o =>
      rw [hc] at h
      cases hcs : classifyFields e rest with
      | none => rw [hcs] at h; cases h
      | some os2 =>
        rw [hcs] at h
        cases h
        rw [encodeFields_cons_classified e info fv rest vs errs o hc]
        rw [encodeFields_classified e rest os2 hcs]
        rfl

theorem lookupA_setA {κ α : Type} [DecidableEq κ] (m : List (κ × α)) (k k2 : κ)
    (a : α) :
    lookupA (setA m k a) k2 = if k = k2 then some a else lookupA m k2 := by
  induction m with
  | nil => by_cases h : k = k2 <;> simp [setA, lookupA, h]
  | cons p rest ih =>
    obtain ⟨k3, b⟩ := p
    by_cases h3 : k3 = k <;> by_cases h2 : k = k2 <;>
      simp_all [setA, lookupA]

/-- C8: a top-level value that is not a struct after at most one pointer
dereference makes `encode` return the single structural error at once,
leaving the collector untouched and traversing no fields. -/
theorem C8_top_level_not_struct (e : Encoder) (v : GoVal) (vs : UrlValues)
    (h : isStructAfterOneDeref v = false) :
    Encoder.encode e v vs = some (vs, some .errStruct) := by
  cases v
  on_goal 8 => exact absurd h (by simp [isStructAfterOneDeref])
  on_goal 6 =>
    rename_i x
    cases x
    on_goal 8 => exact absurd h (by simp [isStructAfterOneDeref])
    all_goals rw [Encoder.encode.eq_def]
  all_goals rw [Encoder.encode.eq_def]

theorem C8_witness :
    isStructAfterOneDeref (.vint 7) = false ∧
    Encoder.encode NewEncoder (.vint 7) { keys := [], values := [] } =
      some ({ keys := [], values := [] }, some .errStruct) :=
  ⟨rfl, C8_top_level_not_struct NewEncoder (.vint 7) { keys := [], values := [] } rfl⟩

/-- C7: a registered encoder is returned by resolution in preference to
any built-in; registering a second encoder for the same concrete type
replaces the first; and for an unregistered type resolution falls back to
the kind-based built-in dispatch. -/
theorem C7_registered_encoder_precedence (e : Encoder) (t u : GoType) (f : EncFn)
    (h1 : lookupA e.regenc t = some f) (h2 : lookupA e.regenc u = none) :
    typeEncoder t e.regenc = some f ∧
    (∀ (value : GoVal) (g1 g2 : EncFn),
      lookupA ((e.RegisterEncoder value g1).RegisterEncoder value g2).regenc
        (typeOf value) = some g2) ∧
    typeEncoder u e.regenc =
      (fun w => match w with
       | GoType.tbool => some encodeBool
       | GoType.tint => some encodeInt
       | GoType.tuint => some encodeUint
       | GoType.tstr => some encodeString
       | GoType.tptr et => some (ptrEncoderWrap (typeEncoder et e.regenc))
       | GoType.tslice _ => none
       | GoType.tstruct _ => none
       | GoType.tmap _ => none) u := by
  refine ⟨?_, ?_, ?_⟩
  · cases t <;> simp [typeEncoder, h1]
  · intro value g1 g2
    simp [Encoder.RegisterEncoder, lookupA_setA]
  · cases u <;> simp [typeEncoder, h2]

theorem C7_witness :
    lookupA (NewEncoder.RegisterEncoder (.vbool true) (fun _ => some "B")).regenc
      .tbool = some (fun _ => some "B") ∧
    lookupA (NewEncoder.RegisterEncoder (.vbool true) (fun _ => some "B")).regenc
      .tint = none ∧
    typeEncoder .tbool
      (NewEncoder.RegisterEncoder (.vbool true) (fun _ => some "B")).regenc =
      some (fun _ => some "B") ∧
    lookupA
      (((NewEncoder.RegisterEncoder (.vbool true) (fun _ => some "B")).RegisterEncoder
          (.vbool true) (fun _ => some "C")).regenc)
      (typeOf (.vbool true)) = some (fun _ => some "C") ∧
    typeEncoder .tint
      (NewEncoder.RegisterEncoder (.vbool true) (fun _ => some "B")).regenc =
      some encodeInt := by
  have h := C7_registered_encoder_precedence
    (NewEncoder.RegisterEncoder (.vbool true) (fun _ => some "B")) .tbool .tint
    (fun _ => some "B") rfl rfl
  exact ⟨rfl, rfl, h.1, h.2.1 (.vbool true) (fun _ => some "B") (fun _ => some "C"),
    h.2.2⟩

/-- C6 counterexample: with an encoder registered for the pointer type
`*int` itself, the pointee encoder is resolvable, yet the resolved
pointer encoder returns `"custom"` — not `"null"` — on a nil pointer. -/
theorem C6_counterexample :
    typeEncoder .tint [(GoType.tptr .tint, (fun _ => some "custom" : EncFn))] =
      some encodeInt ∧
    (typeEncoder (.tptr .tint)
        [(GoType.tptr .tint, (fun _ => some "custom" : EncFn))]).map
      (fun g => g (.vptrN .tint)) = some (some "custom") ∧
    (some (some "custom") : Option (Option String)) ≠ some (some "null") :=
  ⟨rfl, rfl, by decide⟩

/-- C6 (amended): for every pointer type with a resolvable pointee
encoder and no encoder registered for the pointer type itself, resolution
yields the wrapping encoder, which returns `"null"` on a nil pointer and
the pointee encoder's string on a non-nil pointer. -/
theorem C6_pointer_wrap (et : GoType) (reg : List (GoType × EncFn)) (f : EncFn)
    (hreg : lookupA reg (.tptr et) = none) (hf : typeEncoder et reg = some f) :
    typeEncoder (.tptr et) reg = some (ptrEncoderWrap (some f)) ∧
    ptrEncoderWrap (some f) (.vptrN et) = some "null" ∧
    ∀ x, ptrEncoderWrap (some f) (.vptrV x) = f x := by
  refine ⟨?_, rfl, fun x => rfl⟩
  simp only [typeEncoder, hreg, hf]

theorem C6_witness :
    lookupA ([] : List (GoType × EncFn)) (.tptr .tint) = none ∧
    typeEncoder .tint [] = some encodeInt ∧
    typeEncoder (.tptr .tint) [] = some (ptrEncoderWrap (some encodeInt)) ∧
    ptrEncoderWrap (some encodeInt) (.vptrN .tint) = some "null" ∧
    ptrEncoderWrap (some encodeInt) (.vptrV (.vint 5)) = encodeInt (.vint 5) := by
  have h := C6_pointer_wrap .tint [] encodeInt rfl rfl
  exact ⟨rfl, rfl, h.1, h.2.1, h.2.2 (.vint 5)⟩

/-- C9: a nil pointer-to-struct field with no encoder registered for the
pointer type and no `omitempty` is neither skipped nor recursed into: it
appends exactly the pair (alias, "null") to the collector and records no
error. -/
theorem C9_nil_struct_pointer_null (e : Encoder) (info : FieldInfo) (n : String)
    (rest : GoFields) (vs : UrlValues) (errs : MultiError)
    (hname : ¬ info.name = "-")
    (hreg : lookupA e.regenc (.tptr (.tstruct n)) = none)
    (homit : info.opts.contains "omitempty" = false) :
    Encoder.encodeFields e (.cons info (.vptrN (.tstruct n)) rest) vs errs =
      Encoder.encodeFields e rest (appendKV vs info.name "null") errs := by
  have hc : classifyField e info (.vptrN (.tstruct n)) =
      some (.appendOne info.name "null") := by
    unfold classifyField
    rw [if_neg hname]
    simp only [typeOf, typeEncoder, hreg, isValidStructPointer, Bool.false_and,
      Bool.false_eq_true, if_false, ptrEncoderWrap, homit]
  exact encodeFields_cons_classified e info _ rest vs errs _ hc

theorem C9_witness :
    (¬ ("F" : String) = "-") ∧
    lookupA NewEncoder.regenc (.tptr (.tstruct "Inner")) = none ∧
    (([] : List String).contains "omitempty" = false) ∧
    Encoder.encodeFields NewEncoder
      (.cons { name := "F", opts := [] } (.vptrN (.tstruct "Inner")) .nil)
      { keys := [], values := [] } [] =
      Encoder.encodeFields NewEncoder .nil
        (appendKV { keys := [], values := [] } "F" "null") [] :=
  ⟨by decide, rfl, rfl,
    C9_nil_struct_pointer_null NewEncoder { name := "F", opts := [] } "Inner" .nil
      { keys := [], values := [] } [] (by decide) rfl rfl⟩

theorem not_mem_filter_ne (l : List String) (x : String) :
    x ∉ (l.filter fun s => ¬ s = x) := by
  simp [List.mem_filter]

theorem count_removeKeyL (l : List String) (k : String) (h : l.count k ≤ 1) :
    (removeKeyL l k).count k = 0 := by
  induction l with
  | nil => simp [removeKeyL]
  | cons x rest ih =>
    by_cases hx : x = k
    · rw [removeKeyL, if_pos hx]
      subst hx
      simp [List.count_cons] at h
      omega
    · rw [removeKeyL, if_neg hx]
      rw [List.count_cons] at h ⊢
      simp only [beq_iff_eq, hx] at h ⊢
      simp only [if_false, Nat.add_zero] at h ⊢
      exact ih h

/-- C1 counterexample: a non-nil pointer to a map — a type the claim
itself counts among those with no resolvable encoder — does not produce a
per-field error: the resolved pointer closure calls a nil `encoderFunc`
and the whole call panics (`none`). -/
theorem C1_counterexample :
    Encoder.encode NewEncoder
      (.vstruct "S" none
        (.cons { name := "F", opts := [] }
          (.vptrV (.vmap "map[string]string" false)) .nil))
      { keys := [], values := [] } = none := by
  simp [Encoder.encode, Encoder.encodeFields, NewEncoder, typeEncoder, lookupA,
    isValidStructPointer, Encoder.hasCustomEncoder, typeOf, ptrEncoderWrap]

/-- C1 (amended): for every field whose type resolves no encoder and
whose kind is neither struct nor pointer — a map, or a slice whose
element type also resolves no encoder — the field loop records a
per-field error keyed by the field's type name and proceeds to the next
field with the collector untouched. -/
theorem C1_unencodable_field_error (e : Encoder) (info : FieldInfo) (fv : GoVal)
    (rest : GoFields) (vs : UrlValues) (errs : MultiError)
    (hname : ¬ info.name = "-")
    (henc : typeEncoder (typeOf fv) e.regenc = none)
    (hkind : (∃ n emp, fv = .vmap n emp) ∨
             (∃ et xs, fv = .vslice et xs ∧ typeEncoder et e.regenc = none)) :
    Encoder.encodeFields e (.cons info fv rest) vs errs =
      Encoder.encodeFields e rest vs
        (setA errs (typeOf fv).typeName (.notFound fv)) := by
  have hc : classifyField e info fv =
      some (.fail (typeOf fv).typeName (.notFound fv)) := by
    rcases hkind with ⟨n, emp, rfl⟩ | ⟨et, xs, rfl, helem⟩
    · unfold classifyField
      rw [if_neg hname]
      simp [isValidStructPointer, henc]
    · unfold classifyField
      rw [if_neg hname]
      simp [isValidStructPointer, henc, helem]
  exact encodeFields_cons_classified e info fv rest vs errs _ hc

theorem C1_witness :
    (¬ ("F" : String) = "-") ∧
    typeEncoder (typeOf (.vmap "map[string]int" false)) NewEncoder.regenc = none ∧
    Encoder.encodeFields NewEncoder
      (.cons { name := "F", opts := [] } (.vmap "map[string]int" false) .nil)
      { keys := [], values := [] } [] =
      Encoder.encodeFields NewEncoder .nil { keys := [], values := [] }
        (setA [] (typeOf (.vmap "map[string]int" false)).typeName
          (.notFound (.vmap "map[string]int" false))) :=
  ⟨by decide, rfl,
    C1_unencodable_field_error NewEncoder { name := "F", opts := [] }
      (.vmap "map[string]int" false) .nil { keys := [], values := [] } []
      (by decide) rfl (Or.inl ⟨"map[string]int", false, rfl⟩)⟩

/-- C5 counterexample: a nested struct field holding its type's zero
value and carrying `omitempty` is still recursed into, emitting its
subfield's key — the claim's "no key is emitted" fails on the
struct-recursion path. -/
theorem C5_counterexample :
    isZero (.vstruct "Inner" none (.cons { name := "A", opts := [] } (.vint 0) .nil)) =
      true ∧
    Encoder.encode NewEncoder
      (.vstruct "Outer" none
        (.cons { name := "Nested", opts := ["omitempty"] }
          (.vstruct "Inner" none (.cons { name := "A", opts := [] } (.vint 0) .nil))
          .nil))
      { keys := [], values := [] } =
      some ({ keys := ["A"], values := [("A", ["0"])] }, none) := by
  constructor
  · simp [isZero, isZeroFields]
  · simp [Encoder.encode, Encoder.encodeFields, NewEncoder, typeEncoder, lookupA,
      isValidStructPointer, Encoder.hasCustomEncoder, typeOf, encodeInt, appendKV,
      appendA, setA]
    rfl

/-- C5 (amended): for every field handled by the scalar-encoder path or
the slice path, `omitempty` with the zero/empty value (per `isZero`, thus
per the type's own `IsZero` when implemented) suppresses the field
entirely, and with a non-zero value the field encodes exactly as it would
with `omitempty` removed from its options. -/
theorem C5_omitempty_scalar_slice (e : Encoder) (info : FieldInfo) (fv : GoVal)
    (rest : GoFields) (vs : UrlValues) (errs : MultiError)
    (homit : info.opts.contains "omitempty" = true) :
    (∀ (f : EncFn) (value : String),
      (isValidStructPointer fv && !(e.hasCustomEncoder (typeOf fv))) = false →
      typeEncoder (typeOf fv) e.regenc = some f → f fv = some value →
      (isZero fv = true →
        Encoder.encodeFields e (.cons info fv rest) vs errs =
          Encoder.encodeFields e rest vs errs) ∧
      (isZero fv = false →
        Encoder.encodeFields e (.cons info fv rest) vs errs =
          Encoder.encodeFields e
            (.cons { name := info.name,
                     opts := info.opts.filter fun s => ¬ s = "omitempty" } fv rest)
            vs errs)) ∧
    (∀ (et : GoType) (xs : List GoVal) (g : EncFn), fv = .vslice et xs →
      typeEncoder (.tslice et) e.regenc = none →
      typeEncoder et e.regenc = some g →
      (xs = [] →
        Encoder.encodeFields e (.cons info fv rest) vs errs =
          Encoder.encodeFields e rest vs errs) ∧
      (∀ (strs : List String), xs ≠ [] → encodeElems g xs = some strs →
        Encoder.encodeFields e (.cons info fv rest) vs errs =
          Encoder.encodeFields e
            (.cons { name := info.name,
                     opts := info.opts.filter fun s => ¬ s = "omitempty" } fv rest)
            vs errs)) := by
  have homit2 : "omitempty" ∈ info.opts := by simpa using homit
  constructor
  · intro f value hguard henc hval
    constructor
    · intro hz
      have hc : classifyField e info fv = some .skip := by
        unfold classifyField
        by_cases hdash : info.name = "-"
        · rw [if_pos hdash]
        · rw [if_neg hdash, hguard]
          simp [henc, hval, homit2, hz]
      exact encodeFields_cons_classified e info fv rest vs errs _ hc
    · intro hz
      by_cases hdash : info.name = "-"
      · have hc1 : classifyField e info fv = some .skip := by
          unfold classifyField
          rw [if_pos hdash]
        have hc2 : classifyField e
            { name := info.name, opts := info.opts.filter fun s => ¬ s = "omitempty" }
            fv = some .skip := by
          unfold classifyField
          rw [if_pos hdash]
        rw [encodeFields_cons_classified e info fv rest vs errs _ hc1,
          encodeFields_cons_classified e _ fv rest vs errs _ hc2]
      · have hc1 : classifyField e info fv = some (.appendOne info.name value) := by
          unfold classifyField
          rw [if_neg hdash, hguard]
          simp [henc, hval, homit, hz]
        have hc2 : classifyField e
            { name := info.name, opts := info.opts.filter fun s => ¬ s = "omitempty" }
            fv = some (.appendOne info.name value) := by
          unfold classifyField
          rw [if_neg hdash, hguard]
          simp [henc, hval, not_mem_filter_ne]
        rw [encodeFields_cons_classified e info fv rest vs errs _ hc1,
          encodeFields_cons_classified e _ fv rest vs errs _ hc2]
  · rintro et xs g rfl hsl helem
    have hguard : (isValidStructPointer (GoVal.vslice et xs) &&
        !(e.hasCustomEncoder (typeOf (GoVal.vslice et xs)))) = false := by
      simp [isValidStructPointer]
    constructor
    · rintro rfl
      have hc : classifyField e info (GoVal.vslice et []) = some .skip := by
        unfold classifyField
        by_cases hdash : info.name = "-"
        · rw [if_pos hdash]
        · rw [if_neg hdash, hguard]
          simp [typeOf, hsl, helem, homit2]
      exact encodeFields_cons_classified e info _ rest vs errs _ hc
    · intro strs hne hstrs
      by_cases hdash : info.name = "-"
      · have hc1 : classifyField e info (GoVal.vslice et xs) = some .skip := by
          unfold classifyField
          rw [if_pos hdash]
        have hc2 : classifyField e
            { name := info.name, opts := info.opts.filter fun s => ¬ s = "omitempty" }
            (GoVal.vslice et xs) = some .skip := by
          unfold classifyField
          rw [if_pos hdash]
        rw [encodeFields_cons_classified e info _ rest vs errs _ hc1,
          encodeFields_cons_classified e _ _ rest vs errs _ hc2]
      · have hxs : xs.length ≠ 0 := by
          intro hh
          exact hne (List.length_eq_zero.mp hh)
        have hc1 : classifyField e info (GoVal.vslice et xs) =
            some (.setMany info.name strs) := by
          unfold classifyField
          rw [if_neg hdash, hguard]
          simp [typeOf, hsl, helem, hxs, hstrs]
        have hc2 : classifyField e
            { name := info.name, opts := info.opts.filter fun s => ¬ s = "omitempty" }
            (GoVal.vslice et xs) = some (.setMany info.name strs) := by
          unfold classifyField
          rw [if_neg hdash, hguard]
          simp [typeOf, hsl, helem, hxs, hstrs]
        rw [encodeFields_cons_classified e info _ rest vs errs _ hc1,
          encodeFields_cons_classified e _ _ rest vs errs _ hc2]

theorem C5_witness :
    (["omitempty"] : List String).contains "omitempty" = true ∧
    (isValidStructPointer (.vint 0) &&
      !(NewEncoder.hasCustomEncoder (typeOf (.vint 0)))) = false ∧
    typeEncoder (typeOf (.vint 0)) NewEncoder.regenc = some encodeInt ∧
    encodeInt (.vint 0) = some "0" ∧
    isZero (.vint 0) = true ∧
    Encoder.encodeFields NewEncoder
      (.cons { name := "A", opts := ["omitempty"] } (.vint 0) .nil)
      { keys := [], values := [] } [] =
      Encoder.encodeFields NewEncoder .nil { keys := [], values := [] } [] := by
  refine ⟨by decide, rfl, rfl, rfl, ?_, ?_⟩
  · simp [isZero]
  · exact ((C5_omitempty_scalar_slice NewEncoder { name := "A", opts := ["omitempty"] }
      (.vint 0) .nil { keys := [], values := [] } [] (by decide)).1 encodeInt "0"
      rfl rfl rfl).1 (by simp [isZero])

/-- C3 counterexample: a slice field whose element type has no resolvable
encoder, encoded into a collector where its key already has entries,
leaves the prior values in place and the key where it was — it records a
per-field error instead of replacing. -/
theorem C3_counterexample :
    Encoder.encodeFields NewEncoder
      (.cons { name := "k", opts := [] }
        (.vslice (.tstruct "S") [.vstruct "S" none .nil]) .nil)
      { keys := ["k"], values := [("k", ["old"])] } [] =
      some ({ keys := ["k"], values := [("k", ["old"])] },
        [("[]S", .notFound (.vslice (.tstruct "S") [.vstruct "S" none .nil]))]) := by
  simp [Encoder.encodeFields, NewEncoder, typeEncoder, lookupA, isValidStructPointer,
    Encoder.hasCustomEncoder, typeOf, setA, GoType.typeName]

/-- C3 (amended): for every slice field taking the slice branch — element
encoder resolvable, no encoder registered for the slice type itself, not
skipped as empty-with-omitempty, elements encoding without panic —
encoded into a collector whose key already has entries and appears at
most once in the key-order list: the prior values under the key are
replaced by the encoded elements in element order, and the key moves to
the end of the key-order list, where it appears exactly once. -/
theorem C3_slice_replace (e : Encoder) (info : FieldInfo) (et : GoType)
    (xs : List GoVal) (g : EncFn) (strs : List String) (rest : GoFields)
    (vs : UrlValues) (errs : MultiError) (prior : List String)
    (hname : ¬ info.name = "-")
    (hsl : typeEncoder (.tslice et) e.regenc = none)
    (helem : typeEncoder et e.regenc = some g)
    (hstrs : encodeElems g xs = some strs)
    (hskip : xs ≠ [] ∨ "omitempty" ∉ info.opts)
    (hprior : lookupA vs.values info.name = some prior)
    (hcount : vs.keys.count info.name ≤ 1) :
    Encoder.encodeFields e (.cons info (.vslice et xs) rest) vs errs =
      Encoder.encodeFields e rest (sliceSet vs info.name strs) errs ∧
    lookupA (sliceSet vs info.name strs).values info.name = some strs ∧
    (sliceSet vs info.name strs).keys =
      removeKeyL vs.keys info.name ++ [info.name] ∧
    (sliceSet vs info.name strs).keys.count info.name = 1 := by
  have hkeys : (sliceSet vs info.name strs).keys =
      removeKeyL vs.keys info.name ++ [info.name] := by
    simp [sliceSet, hprior, UrlValues.removeKey]
  refine ⟨?_, ?_, hkeys, ?_⟩
  · have hc : classifyField e info (.vslice et xs) =
        some (.setMany info.name strs) := by
      unfold classifyField
      rw [if_neg hname]
      rcases hskip with hne | homitnot
      · have hxs : xs.length ≠ 0 := by
          intro hh
          exact hne (List.length_eq_zero.mp hh)
        simp [isValidStructPointer, typeOf, hsl, helem, hxs, hstrs]
      · simp [isValidStructPointer, typeOf, hsl, helem, homitnot, hstrs]
    exact encodeFields_cons_classified e info _ rest vs errs _ hc
  · simp [sliceSet, hprior, lookupA_setA]
  · rw [hkeys]
    simp [List.count_append, count_removeKeyL vs.keys info.name hcount]

theorem C3_witness :
    (¬ ("k" : String) = "-") ∧
    typeEncoder (.tslice .tint) NewEncoder.regenc = none ∧
    typeEncoder .tint NewEncoder.regenc = some encodeInt ∧
    encodeElems encodeInt [.vint 1, .vint 2] = some ["1", "2"] ∧
    lookupA ({ keys := ["k"], values := [("k", ["old"])] } : UrlValues).values "k" =
      some ["old"] ∧
    (Encoder.encodeFields NewEncoder
        (.cons { name := "k", opts := [] } (.vslice .tint [.vint 1, .vint 2]) .nil)
        { keys := ["k"], values := [("k", ["old"])] } [] =
      Encoder.encodeFields NewEncoder .nil
        (sliceSet { keys := ["k"], values := [("k", ["old"])] } "k" ["1", "2"]) []) ∧
    lookupA (sliceSet { keys := ["k"], values := [("k", ["old"])] } "k"
        ["1", "2"]).values "k" = some ["1", "2"] ∧
    (sliceSet { keys := ["k"], values := [("k", ["old"])] } "k" ["1", "2"]).keys =
      removeKeyL ["k"] "k" ++ ["k"] ∧
    (sliceSet { keys := ["k"], values := [("k", ["old"])] } "k"
        ["1", "2"]).keys.count "k" = 1 := by
  have h := C3_slice_replace NewEncoder { name := "k", opts := [] } .tint
    [.vint 1, .vint 2] encodeInt ["1", "2"] .nil
    { keys := ["k"], values := [("k", ["old"])] } [] ["old"] (by decide) rfl rfl rfl
    (Or.inr (by simp)) rfl (by decide)
  exact ⟨by decide, rfl, rfl, rfl, rfl, h.1, h.2.1, h.2.2.1, h.2.2.2⟩

/-- Folding outcomes whose emitted keys are distinct and fresh for the
collector: keys are appended in order, each emitted key ends up holding
exactly its emission, and other keys are untouched. -/
theorem applyAll_fresh (os : List FieldOutcome) (vs : UrlValues)
    (hnd : ((emitsOf os).map Prod.fst).Nodup)
    (hfresh : ∀ p ∈ emitsOf os, lookupA vs.values p.1 = none) :
    (applyAll os vs).keys = vs.keys ++ (emitsOf os).map Prod.fst ∧
    (∀ p ∈ emitsOf os, lookupA (applyAll os vs).values p.1 = some p.2) ∧
    (∀ k, k ∉ (emitsOf os).map Prod.fst →
      lookupA (applyAll os vs).values k = lookupA vs.values k) := by
  induction os generalizing vs with
  | nil => simp [emitsOf]
  | cons o os ih =>
    cases o with
    | skip =>
      simp only [emitsOf] at hnd hfresh ⊢
      simpa [applyOutcome] using ih vs hnd hfresh
    | fail k err =>
      simp only [emitsOf] at hnd hfresh ⊢
      simpa [applyOutcome] using ih vs hnd hfresh
    | appendOne n v =>
      rw [emitsOf] at hnd hfresh ⊢
      rw [List.map_cons, List.nodup_cons] at hnd
      have hvn : lookupA vs.values n = none :=
        hfresh ⟨n, [v]⟩ (List.mem_cons_self _ _)
      have hstep : applyOutcome (.appendOne n v) vs =
          ⟨vs.keys ++ [n], setA vs.values n [v]⟩ := by
        simp [applyOutcome, appendKV, appendA, hvn]
      have hnd1 : n ∉ (emitsOf os).map Prod.fst := hnd.1
      have hfresh2 : ∀ p ∈ emitsOf os,
          lookupA (setA vs.values n [v]) p.1 = none := by
        intro p hp
        rw [lookupA_setA, if_neg]
        · exact hfresh p (List.mem_cons_of_mem _ hp)
        · intro hnp
          apply hnd1
          rw [hnp]
          exact List.mem_map_of_mem Prod.fst hp
      obtain ⟨ihk, ihe, ihp⟩ :=
        ih ⟨vs.keys ++ [n], setA vs.values n [v]⟩ hnd.2 hfresh2
      rw [applyAll_cons, hstep]
      refine ⟨?_, ?_, ?_⟩
      · rw [ihk]
        simp
      · intro p hp
        rcases List.mem_cons.mp hp with rfl | hp2
        · rw [ihp n hnd1]
          simp [lookupA_setA]
        · exact ihe p hp2
      · intro k hk
        rw [List.map_cons, List.mem_cons] at hk
        push_neg at hk
        rw [ihp k hk.2, lookupA_setA, if_neg (fun hh => hk.1 hh.symm)]
    | setMany n vals =>
      rw [emitsOf] at hnd hfresh ⊢
      rw [List.map_cons, List.nodup_cons] at hnd
      have hvn : lookupA vs.values n = none :=
        hfresh ⟨n, vals⟩ (List.mem_cons_self _ _)
      have hstep : applyOutcome (.setMany n vals) vs =
          ⟨vs.keys ++ [n], setA vs.values n vals⟩ := by
        simp [applyOutcome, sliceSet, hvn]
      have hnd1 : n ∉ (emitsOf os).map Prod.fst := hnd.1
      have hfresh2 : ∀ p ∈ emitsOf os,
          lookupA (setA vs.values n vals) p.1 = none := by
        intro p hp
        rw [lookupA_setA, if_neg]
        · exact hfresh p (List.mem_cons_of_mem _ hp)
        · intro hnp
          apply hnd1
          rw [hnp]
          exact List.mem_map_of_mem Prod.fst hp
      obtain ⟨ihk, ihe, ihp⟩ :=
        ih ⟨vs.keys ++ [n], setA vs.values n vals⟩ hnd.2 hfresh2
      rw [applyAll_cons, hstep]
      refine ⟨?_, ?_, ?_⟩
      · rw [ihk]
        simp
      · intro p hp
        rcases List.mem_cons.mp hp with rfl | hp2
        · rw [ihp n hnd1]
          simp [lookupA_setA]
        · exact ihe p hp2
      · intro k hk
        rw [List.map_cons, List.mem_cons] at hk
        push_neg at hk
        rw [ihp k hk.2, lookupA_setA, if_neg (fun hh => hk.1 hh.symm)]

/-- Error entries recorded by the fold are present afterwards, and
existing entries are never removed. -/
theorem applyAllErrs_entries (os : List FieldOutcome) (errs : MultiError) :
    (∀ p ∈ failsOf os, (lookupA (applyAllErrs os errs) p.1).isSome = true) ∧
    (∀ k, (lookupA errs k).isSome = true →
      (lookupA (applyAllErrs os errs) k).isSome = true) := by
  induction os generalizing errs with
  | nil => simp [failsOf]
  | cons o os ih =>
    cases o with
    | skip =>
      simp only [failsOf] at *
      simpa [applyErrOutcome] using ih errs
    | appendOne n v =>
      simp only [failsOf] at *
      simpa [applyErrOutcome] using ih errs
    | setMany n vals =>
      simp only [failsOf] at *
      simpa [applyErrOutcome] using ih errs
    | fail k err =>
      rw [failsOf]
      obtain ⟨ihf, ihm⟩ := ih (setA errs k err)
      rw [applyAllErrs_cons]
      have hset : ∀ k2, (lookupA errs k2).isSome = true →
          (lookupA (setA errs k err) k2).isSome = true := by
        intro k2 h2
        rw [lookupA_setA]
        by_cases hkk : k = k2 <;> simp [hkk, h2]
      refine ⟨?_, ?_⟩
      · intro p hp
        rcases List.mem_cons.mp hp with rfl | hp2
        · refine ihm k ?_
          simp [lookupA_setA]
        · exact ihf p hp2
      · intro k2 h2
        exact ihm k2 (hset k2 h2)

/-- With no failing outcomes the error accumulator is unchanged. -/
theorem applyAllErrs_no_fail (os : List FieldOutcome) (errs : MultiError)
    (h : failsOf os = []) : applyAllErrs os errs = errs := by
  induction os generalizing errs with
  | nil => rfl
  | cons o os ih =>
    cases o with
    | skip => simpa [applyErrOutcome] using ih errs (by simpa [failsOf] using h)
    | appendOne n v => simpa [applyErrOutcome] using ih errs (by simpa [failsOf] using h)
    | setMany n vals => simpa [applyErrOutcome] using ih errs (by simpa [failsOf] using h)
    | fail k err => simp [failsOf] at h

/-- C2 counterexample: with fields (int "k"), (map "m"), (slice "k"), the
map field fails — so the composite is non-empty — yet the pair
("k", "1") produced by the succeeded first field is no longer present:
the later slice field with the same key replaced it. -/
theorem C2_counterexample :
    Encoder.encode NewEncoder
      (.vstruct "S" none
        (.cons { name := "k", opts := [] } (.vint 1)
          (.cons { name := "m", opts := [] } (.vmap "map[string]int" false)
            (.cons { name := "k", opts := [] } (.vslice .tint [.vint 2]) .nil))))
      { keys := [], values := [] } =
      some ({ keys := ["k"], values := [("k", ["2"])] },
        some (.multi [("map[string]int", .notFound (.vmap "map[string]int" false))])) ∧
    ¬ ("1" ∈ (["2"] : List String)) := by
  constructor
  · simp [Encoder.encode, Encoder.encodeFields, NewEncoder, typeEncoder, lookupA,
      isValidStructPointer, Encoder.hasCustomEncoder, typeOf, encodeInt, appendKV,
      appendA, setA, GoType.typeName, encodeElems, sliceSet, removeKeyL,
      UrlValues.removeKey]
    rfl
  · decide

/-- C2 (amended): for a struct whose fields all classify (no nested
recursion, no panic) with distinct emitted keys into a fresh collector:
when at least one field fails, encode returns a non-empty composite with
an entry present under each failed field's recorded key (its type name),
and every succeeded field's emission is present in the returned
collector under its key. -/
theorem C2_best_effort (e : Encoder) (nm : String) (oz : Option Bool)
    (fs : GoFields) (os : List FieldOutcome)
    (hcl : classifyFields e fs = some os)
    (hnd : ((emitsOf os).map Prod.fst).Nodup)
    (hfail : failsOf os ≠ []) :
    Encoder.encode e (.vstruct nm oz fs) { keys := [], values := [] } =
      some (applyAll os { keys := [], values := [] },
        some (.multi (applyAllErrs os []))) ∧
    applyAllErrs os [] ≠ [] ∧
    (∀ p ∈ failsOf os, (lookupA (applyAllErrs os []) p.1).isSome = true) ∧
    (∀ p ∈ emitsOf os,
      lookupA (applyAll os { keys := [], values := [] }).values p.1 = some p.2) := by
  have hff := applyAllErrs_entries os []
  obtain ⟨p, hp⟩ := List.exists_mem_of_ne_nil _ hfail
  have hpsome := hff.1 p hp
  have hne : applyAllErrs os [] ≠ [] := by
    intro h0
    rw [h0] at hpsome
    simp [lookupA] at hpsome
  refine ⟨?_, hne, hff.1, ?_⟩
  · rw [Encoder.encode.eq_def]
    simp only [encodeFields_classified e fs os hcl]
    rw [if_pos (List.length_pos.mpr hne)]
  · exact (applyAll_fresh os { keys := [], values := [] } hnd (fun p _ => rfl)).2.1

theorem C2_witness :
    classifyFields NewEncoder
      (.cons { name := "a", opts := [] } (.vint 1)
        (.cons { name := "m", opts := [] } (.vmap "map[string]int" false) .nil)) =
      some [.appendOne "a" "1",
        .fail "map[string]int" (.notFound (.vmap "map[string]int" false))] ∧
    ((emitsOf [FieldOutcome.appendOne "a" "1",
        .fail "map[string]int" (.notFound (.vmap "map[string]int" false))]).map
      Prod.fst).Nodup ∧
    failsOf [FieldOutcome.appendOne "a" "1",
      .fail "map[string]int" (.notFound (.vmap "map[string]int" false))] ≠ [] ∧
    Encoder.encode NewEncoder
      (.vstruct "S" none
        (.cons { name := "a", opts := [] } (.vint 1)
          (.cons { name := "m", opts := [] } (.vmap "map[string]int" false) .nil)))
      { keys := [], values := [] } =
      some (applyAll [FieldOutcome.appendOne "a" "1",
          .fail "map[string]int" (.notFound (.vmap "map[string]int" false))]
          { keys := [], values := [] },
        some (.multi (applyAllErrs [FieldOutcome.appendOne "a" "1",
          .fail "map[string]int" (.notFound (.vmap "map[string]int" false))] []))) ∧
    (lookupA (applyAllErrs [FieldOutcome.appendOne "a" "1",
        .fail "map[string]int" (.notFound (.vmap "map[string]int" false))] [])
      "map[string]int").isSome = true ∧
    lookupA (applyAll [FieldOutcome.appendOne "a" "1",
        .fail "map[string]int" (.notFound (.vmap "map[string]int" false))]
        { keys := [], values := [] }).values "a" = some ["1"] := by
  have h := C2_best_effort NewEncoder "S" none
    (.cons { name := "a", opts := [] } (.vint 1)
      (.cons { name := "m", opts := [] } (.vmap "map[string]int" false) .nil))
    [.appendOne "a" "1",
      .fail "map[string]int" (.notFound (.vmap "map[string]int" false))]
    rfl (by simp [emitsOf]) (by simp [failsOf])
  exact ⟨rfl, by simp [emitsOf], by simp [failsOf], h.1,
    h.2.2.1 ("map[string]int", .notFound (.vmap "map[string]int" false))
      (by simp [failsOf]),
    h.2.2.2 ("a", ["1"]) (by simp [emitsOf])⟩

theorem flatMap_keys_lookup (m : List (String × List String)) :
    ∀ (bs : List (String × List String)),
      (∀ p ∈ bs, lookupA m p.1 = some p.2) →
      ((bs.map Prod.fst).flatMap fun k =>
        ((lookupA m k).getD []).map fun x => (k, x)) =
        bs.flatMap fun p => p.2.map fun x => (p.1, x)
  | [], _ => rfl
  | p :: bs, hlook => by
    rw [List.map_cons, List.flatMap_cons, List.flatMap_cons,
      hlook p (List.mem_cons_self _ _)]
    simp only [Option.getD_some]
    rw [flatMap_keys_lookup m bs fun q hq => hlook q (List.mem_cons_of_mem _ hq)]

theorem dedupConsec_cons_block (k : String) : ∀ (ks1 R : List String),
    (∀ x ∈ ks1, x = k) → R.head? ≠ some k →
    dedupConsec (k :: (ks1 ++ R)) = k :: dedupConsec R
  | [], R, _, hR => by
    cases R with
    | nil => rfl
    | cons h t =>
      rw [List.nil_append]
      simp only [dedupConsec]
      rw [if_neg]
      intro hkh
      exact hR (by rw [List.head?_cons, hkh])
  | a :: ks1, R, h1, hR => by
    have ha : a = k := h1 a (List.mem_cons_self _ _)
    rw [ha, List.cons_append]
    simp only [dedupConsec]
    rw [if_pos trivial]
    exact dedupConsec_cons_block k ks1 R
      (fun x hx => h1 x (List.mem_cons_of_mem _ hx)) hR

theorem mem_flatMap_blocks (bs : List (String × List String)) (x : String)
    (hx : x ∈ bs.flatMap fun p => p.2.map fun _ => p.1) :
    x ∈ bs.map Prod.fst := by
  rw [List.mem_flatMap] at hx
  obtain ⟨p, hp, hxp⟩ := hx
  rw [List.mem_map] at hxp
  obtain ⟨a, _, hfa⟩ := hxp
  rw [List.mem_map]
  exact ⟨p, hp, hfa⟩

theorem dedupConsec_flatMap (bs : List (String × List String))
    (hnd : (bs.map Prod.fst).Nodup) (hne : ∀ p ∈ bs, p.2 ≠ []) :
    dedupConsec (bs.flatMap fun p => p.2.map fun _ => p.1) = bs.map Prod.fst := by
  induction bs with
  | nil => rfl
  | cons p bs ih =>
    rw [List.map_cons, List.nodup_cons] at hnd
    obtain ⟨v, vals2, hv⟩ : ∃ v vals2, p.2 = v :: vals2 := by
      cases hp2 : p.2 with
      | nil => exact absurd hp2 (hne p (List.mem_cons_self _ _))
      | cons v vals2 => exact ⟨v, vals2, rfl⟩
    rw [List.flatMap_cons, hv, List.map_cons, List.cons_append]
    rw [dedupConsec_cons_block p.1 (vals2.map fun _ => p.1) _
      (fun x hx => by
        rcases List.mem_map.mp hx with ⟨a, _, hfa⟩
        exact hfa.symm)
      (by
        intro hh
        have hmem : p.1 ∈ bs.flatMap fun q => q.2.map fun _ => q.1 := by
          cases hfr : bs.flatMap fun q => q.2.map fun _ => q.1 with
          | nil => rw [hfr] at hh; cases hh
          | cons a t =>
            rw [hfr, List.head?_cons] at hh
            injection hh with hh2
            subst hh2
            exact List.mem_cons_self _ _
        exact hnd.1 (mem_flatMap_blocks bs p.1 hmem))]
    rw [List.map_cons, ih hnd.2 fun q hq => hne q (List.mem_cons_of_mem _ hq)]

/-- C4 counterexample: a struct with the single field `A` of map type
(no options, alias distinct and not "-") renders to the empty string —
the key `A` is absent rather than produced in declaration order. -/
theorem C4_counterexample :
    Encoder.encode NewEncoder
      (.vstruct "S" none
        (.cons { name := "A", opts := [] } (.vmap "map[string]int" false) .nil))
      { keys := [], values := [] } =
      some ({ keys := [], values := [] },
        some (.multi [("map[string]int", .notFound (.vmap "map[string]int" false))])) ∧
    UrlValues.Encode { keys := [], values := [] } = "" ∧
    (([] : List String) ≠ ["A"]) := by
  refine ⟨?_, rfl, by decide⟩
  simp [Encoder.encode, Encoder.encodeFields, NewEncoder, typeEncoder, lookupA,
    isValidStructPointer, Encoder.hasCustomEncoder, typeOf, setA, GoType.typeName]

/-- C4 (amended): for a struct whose fields classify without failures and
in which every non-"-" field emits a non-empty value list under its own
alias, the aliases being distinct: encoding into a fresh collector
returns no error, the collector's key order is exactly the non-"-"
aliases in declaration order, and the rendered pair sequence visits keys
in that same order ("-"-aliased fields are absent). -/
theorem C4_declaration_order (e : Encoder) (nm : String) (oz : Option Bool)
    (fs : GoFields) (os : List FieldOutcome)
    (hcl : classifyFields e fs = some os)
    (hnofail : failsOf os = [])
    (hnames : (emitsOf os).map Prod.fst = nonDashNames fs)
    (hnd : (nonDashNames fs).Nodup)
    (hne : ∀ p ∈ emitsOf os, p.2 ≠ []) :
    Encoder.encode e (.vstruct nm oz fs) { keys := [], values := [] } =
      some (applyAll os { keys := [], values := [] }, none) ∧
    (applyAll os { keys := [], values := [] }).keys = nonDashNames fs ∧
    dedupConsec ((UrlValues.pairsInOrder
      (applyAll os { keys := [], values := [] })).map Prod.fst) =
      nonDashNames fs := by
  have hndE : ((emitsOf os).map Prod.fst).Nodup := by rw [hnames]; exact hnd
  have hA := applyAll_fresh os { keys := [], values := [] } hndE (fun p _ => rfl)
  have hkeys : (applyAll os { keys := [], values := [] }).keys =
      (emitsOf os).map Prod.fst := by
    rw [hA.1]
    rfl
  refine ⟨?_, ?_, ?_⟩
  · rw [Encoder.encode.eq_def]
    simp only [encodeFields_classified e fs os hcl]
    rw [applyAllErrs_no_fail os [] hnofail]
    simp
  · rw [hkeys, hnames]
  · have hP : UrlValues.pairsInOrder (applyAll os { keys := [], values := [] }) =
        (emitsOf os).flatMap fun p => p.2.map fun x => (p.1, x) := by
      unfold UrlValues.pairsInOrder
      rw [hkeys]
      exact flatMap_keys_lookup _ _ hA.2.1
    rw [hP, List.map_flatMap]
    simp only [List.map_map, Function.comp_def]
    rw [dedupConsec_flatMap (emitsOf os) hndE hne, hnames]

theorem C4_witness :
    classifyFields NewEncoder
      (.cons { name := "Name", opts := [] } (.vstr "a")
        (.cons { name := "Tags", opts := [] } (.vslice .tstr [.vstr "x", .vstr "y"])
          (.cons { name := "-", opts := [] } (.vstr "ignored") .nil))) =
      some [.appendOne "Name" "a", .setMany "Tags" ["x", "y"], .skip] ∧
    failsOf [FieldOutcome.appendOne "Name" "a",
      .setMany "Tags" ["x", "y"], .skip] = [] ∧
    (emitsOf [FieldOutcome.appendOne "Name" "a",
      .setMany "Tags" ["x", "y"], .skip]).map Prod.fst =
      nonDashNames
        (.cons { name := "Name", opts := [] } (.vstr "a")
          (.cons { name := "Tags", opts := [] } (.vslice .tstr [.vstr "x", .vstr "y"])
            (.cons { name := "-", opts := [] } (.vstr "ignored") .nil))) ∧
    Encoder.encode NewEncoder
      (.vstruct "S" none
        (.cons { name := "Name", opts := [] } (.vstr "a")
          (.cons { name := "Tags", opts := [] } (.vslice .tstr [.vstr "x", .vstr "y"])
            (.cons { name := "-", opts := [] } (.vstr "ignored") .nil))))
      { keys := [], values := [] } =
      some (applyAll [FieldOutcome.appendOne "Name" "a",
          .setMany "Tags" ["x", "y"], .skip] { keys := [], values := [] }, none) ∧
    (applyAll [FieldOutcome.appendOne "Name" "a",
        .setMany "Tags" ["x", "y"], .skip] { keys := [], values := [] }).keys =
      ["Name", "Tags"] ∧
    dedupConsec ((UrlValues.pairsInOrder
        (applyAll [FieldOutcome.appendOne "Name" "a",
          .setMany "Tags" ["x", "y"], .skip]
          { keys := [], values := [] })).map Prod.fst) = ["Name", "Tags"] := by
  have h := C4_declaration_order NewEncoder "S" none
    (.cons { name := "Name", opts := [] } (.vstr "a")
      (.cons { name := "Tags", opts := [] } (.vslice .tstr [.vstr "x", .vstr "y"])
        (.cons { name := "-", opts := [] } (.vstr "ignored") .nil)))
    [.appendOne "Name" "a", .setMany "Tags" ["x", "y"], .skip]
    rfl rfl rfl (by simp [nonDashNames]) (by simp [emitsOf])
  exact ⟨rfl, rfl, rfl, h.1, h.2.1, h.2.2⟩

theorem head?_dropWhile {α : Type} (p : α → Bool) :
    ∀ (l : List α) (x : α), (l.dropWhile p).head? = some x → p x = false
  | [], x, h => by cases h
  | a :: l, x, h => by
    rw [List.dropWhile_cons] at h
    by_cases hpa : p a = true
    · rw [if_pos hpa] at h
      exact head?_dropWhile p l x h
    · rw [if_neg hpa] at h
      rw [List.head?_cons] at h
      injection h with h2
      subst h2
      simpa using hpa

theorem mem_dedupConsec : ∀ (l : List String) (x : String),
    x ∈ dedupConsec l ↔ x ∈ l
  | [], x => by simp [dedupConsec]
  | [k], x => by simp [dedupConsec]
  | k :: k2 :: rest, x => by
    simp only [dedupConsec]
    by_cases hk : k = k2
    · rw [if_pos hk, mem_dedupConsec (k2 :: rest) x]
      subst hk
      simp [List.mem_cons]
    · rw [if_neg hk]
      simp only [List.mem_cons, mem_dedupConsec (k2 :: rest) x]

theorem flatMap_congr {α β : Type} (f g : α → List β) :
    ∀ (l : List α), (∀ a ∈ l, f a = g a) → l.flatMap f = l.flatMap g
  | [], _ => rfl
  | a :: l, h => by
    rw [List.flatMap_cons, List.flatMap_cons, h a (List.mem_cons_self _ _),
      flatMap_congr f g l fun b hb => h b (List.mem_cons_of_mem _ hb)]

theorem mem_firstOccurKeys : ∀ (l : List UrlValue) (x : String),
    x ∈ firstOccurKeys l ↔ x ∈ l.map UrlValue.Key
  | [], x => by simp [firstOccurKeys]
  | p :: l, x => by
    simp only [firstOccurKeys, List.map_cons, List.mem_cons, List.mem_filter,
      mem_firstOccurKeys l x, decide_eq_true_eq]
    tauto

theorem firstOccurKeys_block (k : String) :
    ∀ (B : List UrlValue) (p : UrlValue) (R : List UrlValue),
      p.Key = k → (∀ q ∈ B, q.Key = k) → (∀ q ∈ R, q.Key ≠ k) →
      firstOccurKeys (p :: (B ++ R)) = k :: firstOccurKeys R
  | [], p, R, hp, _, hR => by
    rw [List.nil_append]
    rw [show firstOccurKeys (p :: R) =
        p.Key :: (firstOccurKeys R).filter (fun x => ¬ x = p.Key) from rfl]
    rw [hp]
    congr 1
    rw [List.filter_eq_self]
    intro x hx
    have hxR : x ∈ R.map UrlValue.Key := (mem_firstOccurKeys R x).mp hx
    rcases List.mem_map.mp hxR with ⟨q, hq, rfl⟩
    simpa using hR q hq
  | b :: B, p, R, hp, hB, hR => by
    rw [List.cons_append]
    rw [show firstOccurKeys (p :: (b :: (B ++ R))) =
        p.Key :: (firstOccurKeys (b :: (B ++ R))).filter (fun x => ¬ x = p.Key) from rfl]
    rw [hp,
      firstOccurKeys_block k B b R (hB b (List.mem_cons_self _ _))
        (fun q hq => hB q (List.mem_cons_of_mem _ hq)) hR]
    rw [List.filter_cons_of_neg (by simp)]
    congr 1
    rw [List.filter_eq_self]
    intro x hx
    have hxR : x ∈ R.map UrlValue.Key := (mem_firstOccurKeys R x).mp hx
    rcases List.mem_map.mp hxR with ⟨q, hq, rfl⟩
    simpa using hR q hq

theorem valuesL_lookup_gen (k : String) :
    ∀ (l : List UrlValue) (m : List (String × List String)),
      lookupA (l.foldl (fun m p => appendA m p.Key p.Value) m) k =
        if (l.filter fun p => p.Key = k) = [] then lookupA m k
        else some ((lookupA m k).getD [] ++
          ((l.filter fun p => p.Key = k).map UrlValue.Value))
  | [], m => by simp
  | p :: l, m => by
    rw [List.foldl_cons, valuesL_lookup_gen k l (appendA m p.Key p.Value)]
    by_cases hpk : p.Key = k
    · rw [List.filter_cons_of_pos (by simp [hpk])]
      have hm1 : lookupA (appendA m p.Key p.Value) k =
          some ((lookupA m k).getD [] ++ [p.Value]) := by
        rw [appendA, hpk, lookupA_setA, if_pos rfl]
      by_cases hfl : (l.filter fun q => q.Key = k) = []
      · rw [if_pos hfl, if_neg (List.cons_ne_nil _ _), hm1, hfl]
        simp
      · rw [if_neg hfl, if_neg (List.cons_ne_nil _ _), hm1]
        simp
    · rw [List.filter_cons_of_neg (by simp [hpk])]
      have hm1 : lookupA (appendA m p.Key p.Value) k = lookupA m k := by
        rw [appendA, lookupA_setA, if_neg hpk]
      rw [hm1]

theorem lookupA_map_self (f : String → List String) (k : String) :
    ∀ (ks : List String),
      lookupA (ks.map fun x => (x, f x)) k = if k ∈ ks then some (f k) else none
  | [] => by simp [lookupA]
  | a :: ks => by
    rw [List.map_cons]
    simp only [lookupA]
    by_cases hak : a = k
    · subst hak
      simp [lookupA_map_self f a ks]
    · rw [if_neg hak, lookupA_map_self f k ks]
      have hka : ¬ k = a := fun h => hak h.symm
      by_cases hk : k ∈ ks
      · simp [List.mem_cons, hk, hka]
      · simp [List.mem_cons, hk, hka]

/-- The block decomposition: over a contiguous pair sequence, visiting the
first-occurrence keys and listing each key's values in pair order yields
exactly the original pair sequence. -/
theorem blocks_eq : ∀ (l : List UrlValue),
    (dedupConsec (l.map UrlValue.Key)).Nodup →
    ((firstOccurKeys l).flatMap fun k =>
      ((l.filter fun p => p.Key = k).map UrlValue.Value).map fun x => (k, x)) =
      l.map fun p => (p.Key, p.Value)
  | [], _ => rfl
  | p :: rest, hctg => by
    have hBR : rest.takeWhile (fun q => q.Key == p.Key) ++
        rest.dropWhile (fun q => q.Key == p.Key) = rest := by
      exact List.takeWhile_append_dropWhile ..
    have hB : ∀ q ∈ rest.takeWhile (fun q => q.Key == p.Key), q.Key = p.Key := by
      intro q hq
      simpa using List.mem_takeWhile_imp hq
    have hhead : ((rest.dropWhile (fun q => q.Key == p.Key)).map
        UrlValue.Key).head? ≠ some p.Key := by
      intro hh
      cases hR0 : rest.dropWhile (fun q => q.Key == p.Key) with
      | nil => rw [hR0] at hh; cases hh
      | cons r t =>
        rw [hR0, List.map_cons, List.head?_cons] at hh
        injection hh with hh2
        have hfalse := head?_dropWhile (fun q => q.Key == p.Key) rest r
          (by rw [hR0, List.head?_cons])
        simp [hh2] at hfalse
    have hctg2 : p.Key ∉ dedupConsec ((rest.dropWhile
          (fun q => q.Key == p.Key)).map UrlValue.Key) ∧
        (dedupConsec ((rest.dropWhile (fun q => q.Key == p.Key)).map
          UrlValue.Key)).Nodup := by
      have hdc : dedupConsec ((p :: rest).map UrlValue.Key) =
          p.Key :: dedupConsec ((rest.dropWhile (fun q => q.Key == p.Key)).map
            UrlValue.Key) := by
        conv_lhs => rw [List.map_cons, ← hBR, List.map_append]
        exact dedupConsec_cons_block p.Key _ _
          (fun x hx => by
            rcases List.mem_map.mp hx with ⟨q, hq, rfl⟩
            exact hB q hq) hhead
      rw [hdc, List.nodup_cons] at hctg
      exact hctg
    have hRne : ∀ q ∈ rest.dropWhile (fun q => q.Key == p.Key),
        q.Key ≠ p.Key := by
      intro q hq heq
      apply hctg2.1
      rw [mem_dedupConsec]
      have hqmem : q.Key ∈ (rest.dropWhile (fun q => q.Key == p.Key)).map
          UrlValue.Key := List.mem_map_of_mem UrlValue.Key hq
      rwa [heq] at hqmem
    rw [← hBR]
    rw [firstOccurKeys_block p.Key _ p _ rfl hB hRne]
    rw [List.flatMap_cons]
    have hfilterK : ((p :: (rest.takeWhile (fun q => q.Key == p.Key) ++
        rest.dropWhile (fun q => q.Key == p.Key))).filter
          fun q => q.Key = p.Key) =
        p :: rest.takeWhile (fun q => q.Key == p.Key) := by
      rw [List.filter_cons_of_pos (by simp)]
      congr 1
      rw [List.filter_append]
      rw [List.filter_eq_self.mpr (by intro q hq; simpa using hB q hq)]
      rw [List.filter_eq_nil_iff.mpr (by intro q hq; simpa using hRne q hq)]
      simp
    rw [hfilterK]
    have hheadmap : ((List.map UrlValue.Value
        (p :: rest.takeWhile (fun q => q.Key == p.Key))).map
          fun x => (p.Key, x)) =
        (p :: rest.takeWhile (fun q => q.Key == p.Key)).map
          fun q => (q.Key, q.Value) := by
      rw [List.map_map]
      apply List.map_congr_left
      intro q hq
      rcases List.mem_cons.mp hq with rfl | hqB
      · rfl
      · simp [Function.comp_def, hB q hqB]
    rw [hheadmap]
    have htail : ((firstOccurKeys (rest.dropWhile
        (fun q => q.Key == p.Key))).flatMap fun k =>
        (((p :: (rest.takeWhile (fun q => q.Key == p.Key) ++
          rest.dropWhile (fun q => q.Key == p.Key))).filter
            fun q => q.Key = k).map UrlValue.Value).map fun x => (k, x)) =
        ((firstOccurKeys (rest.dropWhile (fun q => q.Key == p.Key))).flatMap
          fun k => (((rest.dropWhile (fun q => q.Key == p.Key)).filter
            fun q => q.Key = k).map UrlValue.Value).map fun x => (k, x)) := by
      apply flatMap_congr
      intro k2 hk2
      have hk2R : k2 ∈ (rest.dropWhile (fun q => q.Key == p.Key)).map
          UrlValue.Key := (mem_firstOccurKeys _ k2).mp hk2
      have hk2ne : ¬ k2 = p.Key := by
        rcases List.mem_map.mp hk2R with ⟨q, hq, rfl⟩
        exact hRne q hq
      have hfil : ((p :: (rest.takeWhile (fun q => q.Key == p.Key) ++
          rest.dropWhile (fun q => q.Key == p.Key))).filter
            fun q => q.Key = k2) =
          (rest.dropWhile (fun q => q.Key == p.Key)).filter
            fun q => q.Key = k2 := by
        rw [List.filter_cons_of_neg (by simp; exact fun hh => hk2ne hh.symm)]
        rw [List.filter_append]
        rw [List.filter_eq_nil_iff.mpr (by
          intro q hq
          have hqk := hB q hq
          simp [hqk]
          exact fun hh => hk2ne hh.symm)]
        simp
      rw [hfil]
    rw [htail, blocks_eq (rest.dropWhile (fun q => q.Key == p.Key)) hctg2.2]
    rw [List.map_cons, List.map_cons, List.map_append]
    simp
termination_by l => l.length
decreasing_by
  simp_wf
  have hle : (rest.dropWhile (fun q => q.Key == p.Key)).length ≤ rest.length :=
    (List.dropWhile_sublist _).length_le
  omega

/-- C10: for every pair sequence in which pairs sharing a key are
contiguous, the list-based `UrlValues` of `values.go` and its ordered-map
view (keys in first-occurrence order, values per key in pair order) are
equivalent: the `Values` maps agree pointwise and the `Encode` renderings
produce the same string. -/
theorem C10_list_ordered_equiv (l : List UrlValue)
    (hctg : (dedupConsec (l.map UrlValue.Key)).Nodup) :
    (∀ k, lookupA (UrlValuesL.Values l) k = lookupA (orderedOfPairs l).values k) ∧
    UrlValuesL.Encode l = UrlValues.Encode (orderedOfPairs l) := by
  constructor
  · intro k
    rw [show UrlValuesL.Values l =
      l.foldl (fun m p => appendA m p.Key p.Value) [] from rfl]
    rw [valuesL_lookup_gen k l []]
    rw [show (orderedOfPairs l).values = (firstOccurKeys l).map
      (fun k2 => (k2, (l.filter fun p => p.Key = k2).map UrlValue.Value)) from rfl]
    rw [lookupA_map_self
      (fun k2 => (l.filter fun p => p.Key = k2).map UrlValue.Value) k
      (firstOccurKeys l)]
    by_cases hf : (l.filter fun p => p.Key = k) = []
    · rw [if_pos hf, if_neg]
      · rfl
      · intro hmem
        rcases List.mem_map.mp ((mem_firstOccurKeys l k).mp hmem) with ⟨q, hq, rfl⟩
        have := List.filter_eq_nil_iff.mp hf q hq
        simp at this
    · rw [if_neg hf, if_pos]
      · simp [lookupA]
      · rw [mem_firstOccurKeys]
        rcases List.exists_mem_of_ne_nil _ hf with ⟨q, hq⟩
        rw [List.mem_filter] at hq
        have hqk : q.Key = k := by simpa using hq.2
        rw [← hqk]
        exact List.mem_map_of_mem UrlValue.Key hq.1
  · have hpi : UrlValues.pairsInOrder (orderedOfPairs l) =
        l.map fun q => (q.Key, q.Value) := by
      refine Eq.trans ?_ (blocks_eq l hctg)
      rw [show UrlValues.pairsInOrder (orderedOfPairs l) =
        (firstOccurKeys l).flatMap (fun k =>
          ((lookupA ((firstOccurKeys l).map fun k2 =>
            (k2, (l.filter fun p => p.Key = k2).map UrlValue.Value)) k).getD
              []).map fun x => (k, x)) from rfl]
      apply flatMap_congr
      intro k hk
      rw [lookupA_map_self
        (fun k2 => (l.filter fun p => p.Key = k2).map UrlValue.Value) k
        (firstOccurKeys l), if_pos hk]
      rfl
    cases l with
    | nil => rfl
    | cons p rest =>
      rw [show UrlValues.Encode (orderedOfPairs (p :: rest)) =
        (if (orderedOfPairs (p :: rest)).values.length = 0 then ""
         else String.intercalate "&"
           ((UrlValues.pairsInOrder (orderedOfPairs (p :: rest))).map
             fun q => queryEscape q.1 ++ "=" ++ queryEscape q.2)) from rfl]
      rw [if_neg (by
        rw [show (orderedOfPairs (p :: rest)).values =
          (firstOccurKeys (p :: rest)).map (fun k2 =>
            (k2, ((p :: rest).filter fun q => q.Key = k2).map UrlValue.Value))
          from rfl]
        rw [List.length_map]
        rw [show firstOccurKeys (p :: rest) = p.Key ::
          (firstOccurKeys rest).filter (fun x => ¬ x = p.Key) from rfl]
        simp)]
      rw [hpi]
      rw [show UrlValuesL.Encode (p :: rest) = String.intercalate "&"
        ((p :: rest).map fun q =>
          queryEscape q.Key ++ "=" ++ queryEscape q.Value) from rfl]
      rw [List.map_map]
      rfl

theorem C10_witness :
    (dedupConsec (([⟨"a", "1"⟩, ⟨"a", "2"⟩, ⟨"b", "3"⟩] :
      List UrlValue).map UrlValue.Key)).Nodup ∧
    lookupA (UrlValuesL.Values [⟨"a", "1"⟩, ⟨"a", "2"⟩, ⟨"b", "3"⟩]) "a" =
      lookupA (orderedOfPairs [⟨"a", "1"⟩, ⟨"a", "2"⟩, ⟨"b", "3"⟩]).values "a" ∧
    UrlValuesL.Encode [⟨"a", "1"⟩, ⟨"a", "2"⟩, ⟨"b", "3"⟩] =
      UrlValues.Encode (orderedOfPairs [⟨"a", "1"⟩, ⟨"a", "2"⟩, ⟨"b", "3"⟩]) := by
  have hctg : (dedupConsec (([⟨"a", "1"⟩, ⟨"a", "2"⟩, ⟨"b", "3"⟩] :
      List UrlValue).map UrlValue.Key)).Nodup := by
    simp [dedupConsec]
  have h := C10_list_ordered_equiv [⟨"a", "1"⟩, ⟨"a", "2"⟩, ⟨"b", "3"⟩] hctg
  exact ⟨hctg, h.1 "a", h.2⟩

end Schema
